import Mathlib

/-!
Shallow embedding of `scripts/optimizer.py` (AdGuard Home filter optimizer).

Strings are modelled as `List Char` (`Str`); Python string operations
(`strip`, `split`, `startswith`, `endswith`, `re.sub(r"\s+", " ", ·)`,
`re.match(r"^\|\|([^/^$]+)\^", ·)`, `re.search` of the host-token regex,
`sorted`, `list.sort`) are modelled as executable Lean functions below.
-/

namespace Optimizer

/-- Strings of the Python program, modelled as lists of characters. -/
abbrev Str := List Char

/-- Whitespace characters: the ASCII characters matched by Python's
`str.strip()` and by the regex class `\s` ( space, tab, newline,
carriage return, vertical tab, form feed ). -/
def pyIsSpace (c : Char) : Bool :=
  c == ' ' || c == '\t' || c == '\n' || c == '\r' || c == '\x0b' || c == '\x0c'

/-- Python `str.strip()`: drop leading and trailing whitespace. -/
def pyStrip (s : Str) : Str :=
  ((s.dropWhile pyIsSpace).reverse.dropWhile pyIsSpace).reverse

/-- Helper for `collapseWs`: the boolean records whether the previous
character was whitespace (so that a whole run collapses to one space). -/
def collapseWsAux : Bool → Str → Str
  | _, [] => []
  | prevSpace, c :: rest =>
    if pyIsSpace c then
      if prevSpace then collapseWsAux true rest
      else ' ' :: collapseWsAux true rest
    else c :: collapseWsAux false rest

/-- Python `re.sub(r"\s+", " ", s)`: every maximal run of whitespace
characters is replaced by a single space. -/
def collapseWs (s : Str) : Str := collapseWsAux false s

/-- Python `s.startswith(p)`. -/
def pyStartsWith : Str → Str → Bool
  | [], _ => true
  | _ :: _, [] => false
  | a :: as, b :: bs => a == b && pyStartsWith as bs

/-- Python `s.endswith(p)`. -/
def pyEndsWith (p s : Str) : Bool := pyStartsWith p.reverse s.reverse

/-- Python string comparison (`<=` on strings): lexicographic by code point. -/
def strLe : Str → Str → Bool
  | [], _ => true
  | _ :: _, [] => false
  | a :: as, b :: bs => if a < b then true else if b < a then false else strLe as bs

/-- Propositional form of `strLe`, used as the order for `List.insertionSort`. -/
def StrLe (a b : Str) : Prop := strLe a b = true

instance : DecidableRel StrLe := fun a b => instDecidableEqBool (strLe a b) true

/-- Python `sorted(keys, key=len, reverse=True)` sorts by descending length;
ties keep their original order (stable sort), which `insertionSort` with
this order also guarantees. -/
def LenGe (a b : Str) : Prop := b.length ≤ a.length

instance : DecidableRel LenGe := fun a b => Nat.decLe b.length a.length

/-- Characters of the regex class `[a-zA-Z0-9.-]` used for host extraction. -/
def isHostChar (c : Char) : Bool := c.isAlphanum || c == '.' || c == '-'

/-- Test whether backtracking of `[a-zA-Z0-9.-]+\.[a-zA-Z]{2,}` can stop the
first group after `k` characters of `run`: position `k` must hold the dot
and at least two letters must follow. -/
def validDotAt (run : Str) (k : Nat) : Bool :=
  decide (1 ≤ k) && (run[k]? == some '.')
    && ((run[k+1]?).any Char.isAlpha) && ((run[k+2]?).any Char.isAlpha)

/-- The greedy group `[a-zA-Z0-9.-]+` backtracks from the longest run, so the
engine uses the largest valid dot position. -/
def lastValidDot (run : Str) : Option Nat :=
  ((List.range run.length).filter (validDotAt run)).getLast?

/-- Attempt to match `([a-zA-Z0-9.-]+\.[a-zA-Z]{2,})` at the start of `l`
(the way Python's backtracking engine does): the first group greedily takes
host characters, backtracks to the last dot followed by at least two
letters, and `[a-zA-Z]{2,}` then greedily takes letters. -/
def grabMatch (l : Str) : Option Str :=
  let run := l.takeWhile isHostChar
  match lastValidDot run with
  | none => none
  | some k => some (run.take k ++ '.' :: ((run.drop (k+1)).takeWhile Char.isAlpha))

/-- Python `re.search(r"([a-zA-Z0-9.-]+\.[a-zA-Z]{2,})", l)`: leftmost
starting position wins, then the match is produced greedily. -/
def reSearchDomain : Str → Option Str
  | [] => none
  | c :: rest =>
    match grabMatch (c :: rest) with
    | some m => some m
    | none => reSearchDomain rest

/-- An anchored domain rule `||domain^` built from a host. -/
def mkDomainRule (d : Str) : Str := '|' :: '|' :: (d ++ ['^'])

/-- Python `re.match(r"^\|\|([^/^$]+)\^", rule)`: the rule must begin with
`||`, followed by at least one character none of which is `/`, `^` or `$`,
followed by `^`. Returns the host group on success. -/
def matchPipeHost (rule : Str) : Option Str :=
  match rule with
  | '|' :: '|' :: rest =>
    let host := rest.takeWhile (fun c => !(c == '/' || c == '^' || c == '$'))
    if !host.isEmpty && (rest.drop host.length).head? == some '^' then some host
    else none
  | _ => none

/-- `FilterOptimizer.convert_to_pipe_format` (optimizer.py lines 141-167):
canonicalize a rule into the `||domain^` form. -/
def convert_to_pipe_format (rule : Str) : Str :=
  if pyStartsWith ['|', '|'] rule && pyEndsWith ['^'] rule then rule
  else if pyStartsWith ['@', '@', '|', '|'] rule && pyEndsWith ['^'] rule then rule
  else if (matchPipeHost rule).isSome then rule
  else
    match reSearchDomain rule with
    | some domain =>
      if pyStartsWith ['@', '@'] rule then '@' :: '@' :: mkDomainRule domain
      else mkDomainRule domain
    | none => rule

/-- Default `supported_modifiers` from `load_config` (optimizer.py lines 35-38). -/
def defaultModifiers : List Str :=
  ["domain", "third-party", "important", "client",
   "dnstype", "dnsrewrite", "rewrite"].map String.toList

/-- The configuration switches that the modelled code paths consult
(`load_config`, optimizer.py lines 29-60). -/
structure Config where
  domain_convergence : Bool
  format_standardize : Bool
  supported_modifiers : List Str

/-- The default configuration (`default_config` in `load_config`). -/
def defaultConfig : Config := ⟨true, true, defaultModifiers⟩

/-- The candidate modifier tokens of a rule containing `$` (optimizer.py
line 120): everything after the first `$` is stripped, split on `,`, each
token stripped, empty tokens dropped. -/
def candidateModifiers (rule : Str) : List Str :=
  (((pyStrip ((rule.dropWhile (fun c => c != '$')).tail)).splitOn ',').map pyStrip).filter
    (fun m => !m.isEmpty)

/-- The surviving modifier tokens (optimizer.py lines 121-126): keep a token
iff the part before its first `=` is in the configured allow-list. -/
def validModifiers (mods : List Str) (rule : Str) : List Str :=
  (candidateModifiers rule).filter
    (fun m => mods.contains (m.takeWhile (fun c => c != '=')))

/-- The modifier-handling block of `normalize_rule` (optimizer.py lines
114-133): split on the first `$`, filter the modifiers, sort the survivors
and rejoin them with `$` and `,`; drop the `$` part when none survive. -/
def filterModifiers (mods : List Str) (rule : Str) : Str :=
  if rule.contains '$' then
    let pattern := pyStrip (rule.takeWhile (fun c => c != '$'))
    let valid := validModifiers mods rule
    if !valid.isEmpty then
      pattern ++ '$' :: List.intercalate [','] (List.insertionSort StrLe valid)
    else pattern
  else rule

/-- `FilterOptimizer.normalize_rule` (optimizer.py lines 102-139). `none`
models Python's `None` for blank/comment lines. -/
def normalize_rule (cfg : Config) (raw : Str) : Option Str :=
  let rule := pyStrip raw
  if rule.isEmpty || pyStartsWith ['!'] rule || pyStartsWith ['#'] rule then none
  else
    let rule := collapseWs rule
    let rule := filterModifiers cfg.supported_modifiers rule
    some (if cfg.format_standardize then convert_to_pipe_format rule else rule)

/-- The rule value reached inside `normalize_rule` right before the
`format_standardize` step: stripped, whitespace-collapsed, modifiers
filtered and reattached. -/
def preNormalized (cfg : Config) (raw : Str) : Str :=
  filterModifiers cfg.supported_modifiers (collapseWs (pyStrip raw))

/-- Recursive worker of `deduplicate_rules`: `seen` is the set of rules kept
so far; first occurrences go to the first component, repeats to the second. -/
def dedupGo (seen : List Str) : List Str → List Str × List Str
  | [] => ([], [])
  | r :: rest =>
    if seen.contains r then
      let p := dedupGo seen rest
      (p.1, r :: p.2)
    else
      let p := dedupGo (r :: seen) rest
      (r :: p.1, p.2)

/-- `FilterOptimizer.deduplicate_rules` (optimizer.py lines 169-189): returns
`(unique_rules, duplicates)`. -/
def deduplicate_rules (rules : List Str) : List Str × List Str :=
  dedupGo [] rules

/-- The test `rule.startswith('||') and rule.endswith('^')` of
`domain_convergence` (optimizer.py line 201). -/
def isDomainRule (r : Str) : Bool :=
  pyStartsWith ['|', '|'] r && pyEndsWith ['^'] r

/-- `rule[2:-1]` (optimizer.py line 202): the host of an anchored rule. -/
def ruleDomain (r : Str) : Str := (r.drop 2).dropLast

/-- Python dict assignment `domain_rules[domain] = rule`: update in place if
the key exists (keeping its position), otherwise append. -/
def insertDomain (d : Str) (r : Str) (dict : List (Str × Str)) : List (Str × Str) :=
  if dict.any (fun p => p.1 == d) then
    dict.map (fun p => if p.1 == d then (d, r) else p)
  else dict ++ [(d, r)]

/-- One iteration of the partition loop of `domain_convergence` (optimizer.py
lines 200-205): anchored rules go into the dict keyed by host, everything
else is appended to `other_rules`. -/
def buildStep (acc : List (Str × Str) × List Str) (r : Str) : List (Str × Str) × List Str :=
  if isDomainRule r then (insertDomain (ruleDomain r) r acc.1, acc.2)
  else (acc.1, acc.2 ++ [r])

/-- The partition loop of `domain_convergence` (optimizer.py lines 197-205):
builds `(domain_rules, other_rules)`. -/
def buildTables (rules : List Str) : List (Str × Str) × List Str :=
  rules.foldl buildStep ([], [])

/-- The marking loop of `domain_convergence` (optimizer.py lines 214-219):
a domain is marked for removal iff some later domain in the sorted order
equals it or is a parent of it. Returned in scan order; Python collects the
same domains in a set. -/
def markRemove : List Str → List Str
  | [] => []
  | d :: rest =>
    if rest.any (fun o => pyEndsWith ('.' :: o) d || d == o) then d :: markRemove rest
    else markRemove rest

/-- `FilterOptimizer.domain_convergence` (optimizer.py lines 191-233):
returns `(final_rules, removed_subdomain_rules)`. -/
def domain_convergence (cfg : Config) (rules : List Str) : List Str × List Str :=
  if !cfg.domain_convergence then (rules, [])
  else
    let t := buildTables rules
    let sorted_domains := List.insertionSort LenGe (t.1.map (fun p => p.1))
    let to_remove := markRemove sorted_domains
    let final_domain_rules :=
      (t.1.filter (fun p => !to_remove.contains p.1)).map (fun p => p.2)
    (t.2 ++ final_domain_rules,
      to_remove.filterMap (fun d => (t.1.find? (fun p => p.1 == d)).map (fun p => p.2)))

/-- The `domain_rules` dict built by `domain_convergence`. -/
def convDict (rules : List Str) : List (Str × Str) := (buildTables rules).1

/-- The `other_rules` list built by `domain_convergence`. -/
def convOthers (rules : List Str) : List Str := (buildTables rules).2

/-- The keys of `domain_rules`, in insertion order. -/
def convKeys (rules : List Str) : List Str := (convDict rules).map (fun p => p.1)

/-- `sorted(domain_rules.keys(), key=len, reverse=True)`. -/
def convSorted (rules : List Str) : List Str := List.insertionSort LenGe (convKeys rules)

/-- The `to_remove` set of `domain_convergence`, as the list of marked
domains in scan order. -/
def convRemoved (rules : List Str) : List Str := markRemove (convSorted rules)

/-- Timestamp strings interpolated into the output header (`datetime.now()`
formats); opaque run-time inputs of `save_results`. -/
structure SaveParams where
  version : Str
  last_modified : Str

/-- Decimal representation of a count, as Python's f-string interpolation
prints it. -/
def natRepr (n : Nat) : Str := (Nat.repr n).toList

/-- The comment lines of the header f-string of `save_results` (optimizer.py
lines 255-263). `reduction` stands for the `:.2f`-formatted percentage. -/
def headerLines (p : SaveParams) (original_count : Nat) (reduction : Str)
    (rules : List Str) : List Str :=
  ["! Title: Optimized AdGuard Home Filters".toList,
   "! Description: Optimized filter list for AdGuard Home".toList,
   "! Version: ".toList ++ p.version,
   "! Last Modified: ".toList ++ p.last_modified,
   "! Optimizer: GitHub Actions Automation".toList,
   "! Original Rules: ".toList ++ natRepr original_count,
   "! Optimized Rules: ".toList ++ natRepr rules.length,
   "! Reduction: ".toList ++ reduction ++ ['%'],
   "! ".toList]

/-- The bytes `save_results` writes to the optimized-rules file (optimizer.py
lines 265-268): the header block, then every rule, lexicographically sorted,
each line terminated by a newline. -/
def saveContent (p : SaveParams) (original_count : Nat) (reduction : Str)
    (rules : List Str) : Str :=
  (headerLines p original_count reduction rules ++ List.insertionSort StrLe rules).flatMap
    (fun l => l ++ ['\n'])

/-- `FilterOptimizer.save_results` (optimizer.py lines 249-268). The header
f-string reads `self.stats['reduction_percent']`; that key is only created by
`save_statistics`, so when it is absent the lookup raises `KeyError` before
anything is written. -/
def save_results (p : SaveParams) (original_count : Nat)
    (reduction_percent : Option Str) (rules : List Str) : Except String Str :=
  match reduction_percent with
  | none => .error "KeyError: reduction_percent"
  | some red => .ok (saveContent p original_count red rules)

deriving instance DecidableEq for Except

/-- File-system effects of a run, in order of occurrence. -/
inductive WriteEvent where
  | removalLog : Str → List Str → WriteEvent
  | optimizedFile : Str → WriteEvent
  | statsFile : WriteEvent
deriving DecidableEq

/-- `FilterOptimizer.run` (optimizer.py lines 308-352) over the raw lines
loaded from the source files. Returns the Python outcome — `.ok b` models
`return b`, `.error e` models an uncaught exception — together with the file
writes performed. `save_statistics` (which would set `reduction_percent` and
write the statistics file) runs only after `save_results` has succeeded. -/
def run (cfg : Config) (p : SaveParams) (raw : List Str) :
    Except String Bool × List WriteEvent :=
  if raw.isEmpty then (.ok false, [])
  else
    let normalized := raw.filterMap (normalize_rule cfg)
    let dd := deduplicate_rules normalized
    let w1 : List WriteEvent :=
      if dd.2.isEmpty then [] else [.removalLog "duplicates".toList dd.2]
    let dc := domain_convergence cfg dd.1
    let w2 : List WriteEvent :=
      if dc.2.isEmpty then [] else [.removalLog "subdomains".toList dc.2]
    match save_results p raw.length none dc.1 with
    | .error e => (.error e, w1 ++ w2)
    | .ok content => (.ok true, w1 ++ w2 ++ [.optimizedFile content, .statsFile])

example : reSearchDomain "plain.net".toList = some "plain.net".toList := by decide
example : reSearchDomain "bad.com$important".toList = some "bad.com".toList := by decide
example : reSearchDomain "http://sub.bad.net/path?x=1".toList = some "sub.bad.net".toList := by
  decide
example : reSearchDomain "/regexonly/".toList = none := by decide
example : convert_to_pipe_format "plain.net".toList = "||plain.net^".toList := by decide
example : convert_to_pipe_format "@@sub.ok.net/x".toList = "@@||sub.ok.net^".toList := by decide
example : convert_to_pipe_format "||a.com^".toList = "||a.com^".toList := by decide
example : convert_to_pipe_format "||bad.com^$x".toList = "||bad.com^$x".toList := by decide
example : normalize_rule defaultConfig "||bad.com^$domain=good.com,evilmod,important".toList
    = some "||bad.com^$domain=good.com,important".toList := by decide
example : normalize_rule defaultConfig "bad.com$important".toList
    = some "||bad.com^".toList := by decide
example : normalize_rule defaultConfig "! c".toList = none := by decide
example : normalize_rule defaultConfig "   ".toList = none := by decide
example :
    deduplicate_rules (["||a.com^", "||a.com^", "||x.a.com^"].map String.toList)
      = (["||a.com^", "||x.a.com^"].map String.toList, ["||a.com^"].map String.toList) := by
  decide
example :
    domain_convergence defaultConfig
        (["||a.com^", "||x.a.com^", "||plain.net^"].map String.toList)
      = (["||a.com^", "||plain.net^"].map String.toList, ["||x.a.com^"].map String.toList) := by
  decide
example :
    run defaultConfig ⟨"v".toList, "t".toList⟩ ["a.com".toList]
      = (.error "KeyError: reduction_percent", []) := by decide
example : run defaultConfig ⟨"v".toList, "t".toList⟩ [] = (.ok false, []) := by decide

/-! ### Helper lemmas -/

theorem pyStartsWith_iff (p : Str) : ∀ s, pyStartsWith p s = true ↔ ∃ t, s = p ++ t := by
  induction p with
  | nil =>
    intro s
    simp [pyStartsWith]
  | cons a as ih =>
    intro s
    cases s with
    | nil => simp [pyStartsWith]
    | cons b bs =>
      simp only [pyStartsWith, Bool.and_eq_true, beq_iff_eq, ih bs, List.cons_append]
      constructor
      · rintro ⟨rfl, t, rfl⟩
        exact ⟨t, rfl⟩
      · rintro ⟨t, h⟩
        injection h with h1 h2
        exact ⟨h1.symm, t, h2⟩

theorem pyEndsWith_iff (p s : Str) : pyEndsWith p s = true ↔ ∃ t, s = t ++ p := by
  unfold pyEndsWith
  rw [pyStartsWith_iff]
  constructor
  · rintro ⟨t, h⟩
    refine ⟨t.reverse, ?_⟩
    have h2 := congrArg List.reverse h
    simpa using h2
  · rintro ⟨t, rfl⟩
    exact ⟨t.reverse, by simp⟩

theorem mkDomainRule_append (d : Str) : mkDomainRule d = ('|' :: '|' :: d) ++ ['^'] := by
  simp [mkDomainRule]

theorem pyStartsWith_pipes_mk (d : Str) : pyStartsWith ['|', '|'] (mkDomainRule d) = true := by
  simp [mkDomainRule, pyStartsWith]

theorem pyEndsWith_caret_mk (d : Str) : pyEndsWith ['^'] (mkDomainRule d) = true :=
  (pyEndsWith_iff _ _).mpr ⟨'|' :: '|' :: d, mkDomainRule_append d⟩

theorem convert_mk_fixed (d : Str) :
    convert_to_pipe_format (mkDomainRule d) = mkDomainRule d := by
  simp [convert_to_pipe_format, pyStartsWith_pipes_mk, pyEndsWith_caret_mk]

theorem convert_exception_fixed (d : Str) :
    convert_to_pipe_format ('@' :: '@' :: mkDomainRule d) = '@' :: '@' :: mkDomainRule d := by
  have hpipe : (('|' : Char) == '@') = false := by decide
  have h1 : pyStartsWith ['|', '|'] ('@' :: '@' :: mkDomainRule d) = false := by
    simp [pyStartsWith, hpipe]
  have h2 : pyStartsWith ['@', '@', '|', '|'] ('@' :: '@' :: mkDomainRule d) = true := by
    simp [pyStartsWith, mkDomainRule]
  have h3 : pyEndsWith ['^'] ('@' :: '@' :: mkDomainRule d) = true :=
    (pyEndsWith_iff _ _).mpr ⟨'@' :: '@' :: '|' :: '|' :: d, by simp [mkDomainRule]⟩
  simp [convert_to_pipe_format, h1, h2, h3]

theorem normalize_rule_eq (cfg : Config) (raw : Str)
    (hne : (pyStrip raw).isEmpty = false)
    (hcb : pyStartsWith ['!'] (pyStrip raw) = false)
    (hch : pyStartsWith ['#'] (pyStrip raw) = false) :
    normalize_rule cfg raw
      = some (if cfg.format_standardize then convert_to_pipe_format (preNormalized cfg raw)
          else preNormalized cfg raw) := by
  unfold normalize_rule preNormalized
  simp [hne, hcb, hch]

theorem strLe_total (a : Str) : ∀ b, strLe a b = true ∨ strLe b a = true := by
  induction a with
  | nil =>
    intro b
    exact Or.inl rfl
  | cons x xs ih =>
    intro b
    cases b with
    | nil => exact Or.inr rfl
    | cons y ys =>
      rcases lt_trichotomy x y with h | h | h
      · exact Or.inl (by simp [strLe, h])
      · subst h
        rcases ih ys with h2 | h2
        · exact Or.inl (by simp [strLe, lt_irrefl, h2])
        · exact Or.inr (by simp [strLe, lt_irrefl, h2])
      · exact Or.inr (by simp [strLe, h])

theorem strLe_trans : ∀ {a b c : Str}, strLe a b = true → strLe b c = true → strLe a c = true := by
  intro a
  induction a with
  | nil =>
    intro b c _ _
    rfl
  | cons x xs ih =>
    intro b c hab hbc
    cases b with
    | nil => simp [strLe] at hab
    | cons y ys =>
      cases c with
      | nil => simp [strLe] at hbc
      | cons z zs =>
        simp only [strLe] at hab hbc ⊢
        rcases lt_trichotomy x y with hxy | hxy | hxy
        · rcases lt_trichotomy y z with hyz | hyz | hyz
          · simp [lt_trans hxy hyz]
          · subst hyz
            simp [hxy]
          · simp [hyz, asymm hyz] at hbc
        · subst hxy
          rcases lt_trichotomy x z with hyz | hyz | hyz
          · simp [hyz]
          · subst hyz
            simp only [lt_irrefl, if_false] at hab hbc ⊢
            exact ih hab hbc
          · simp [hyz, asymm hyz] at hbc
        · simp [hxy, asymm hxy] at hab

instance : IsTotal Str StrLe := ⟨fun a b => strLe_total a b⟩

instance : IsTrans Str StrLe := ⟨fun _ _ _ hab hbc => strLe_trans hab hbc⟩

open List

/-- Index of the first occurrence of `v` in a list (the position dedup's
first-seen order refers to). -/
def firstIdx (v : Str) : List Str → Nat
  | [] => 0
  | r :: rest => if r = v then 0 else firstIdx v rest + 1

theorem str_contains_iff (seen : List Str) (r : Str) : seen.contains r = true ↔ r ∈ seen :=
  List.elem_iff

theorem firstIdx_cons_self (v : Str) (rest : List Str) : firstIdx v (v :: rest) = 0 := by
  simp [firstIdx]

theorem firstIdx_cons_ne (v r : Str) (rest : List Str) (h : r ≠ v) :
    firstIdx v (r :: rest) = firstIdx v rest + 1 := by
  simp [firstIdx, h]
theorem dedupGo_cons_mem (seen : List Str) (r : Str) (rest : List Str)
    (hc : seen.contains r = true) :
    dedupGo seen (r :: rest) = ((dedupGo seen rest).1, r :: (dedupGo seen rest).2) := by
  simp only [dedupGo]
  rw [if_pos hc]

theorem dedupGo_cons_not_mem (seen : List Str) (r : Str) (rest : List Str)
    (hc : seen.contains r = false) :
    dedupGo seen (r :: rest)
      = (r :: (dedupGo (r :: seen) rest).1, (dedupGo (r :: seen) rest).2) := by
  have hn : ¬ (seen.contains r = true) := by
    intro h
    rw [h] at hc
    cases hc
  simp only [dedupGo]
  rw [if_neg hn]

theorem dedupGo_count (v : Str) :
    ∀ (l seen : List Str),
      (dedupGo seen l).1.count v + (dedupGo seen l).2.count v = l.count v := by
  intro l
  induction l with
  | nil =>
    intro seen
    simp [dedupGo]
  | cons r rest ih =>
    intro seen
    cases hc : seen.contains r with
    | true =>
      have h1 := ih seen
      rw [dedupGo_cons_mem seen r rest hc]
      simp only [List.count_cons]
      omega
    | false =>
      have h1 := ih (r :: seen)
      rw [dedupGo_cons_not_mem seen r rest hc]
      simp only [List.count_cons]
      omega

theorem dedupGo_kept_sublist : ∀ (l seen : List Str), (dedupGo seen l).1 <+ l := by
  intro l
  induction l with
  | nil =>
    intro seen
    simp [dedupGo]
  | cons r rest ih =>
    intro seen
    cases hc : seen.contains r with
    | true =>
      rw [dedupGo_cons_mem seen r rest hc]
      exact (ih seen).cons r
    | false =>
      rw [dedupGo_cons_not_mem seen r rest hc]
      exact (ih (r :: seen)).cons₂ r

theorem dedupGo_removed_sublist : ∀ (l seen : List Str), (dedupGo seen l).2 <+ l := by
  intro l
  induction l with
  | nil =>
    intro seen
    simp [dedupGo]
  | cons r rest ih =>
    intro seen
    cases hc : seen.contains r with
    | true =>
      rw [dedupGo_cons_mem seen r rest hc]
      exact (ih seen).cons₂ r
    | false =>
      rw [dedupGo_cons_not_mem seen r rest hc]
      exact (ih (r :: seen)).cons r

theorem dedupGo_not_seen :
    ∀ (l seen : List Str) (v : Str), v ∈ (dedupGo seen l).1 → v ∉ seen := by
  intro l
  induction l with
  | nil =>
    intro seen v hv
    simp [dedupGo] at hv
  | cons r rest ih =>
    intro seen v hv
    cases hc : seen.contains r with
    | true =>
      rw [dedupGo_cons_mem seen r rest hc] at hv
      exact ih seen v hv
    | false =>
      rw [dedupGo_cons_not_mem seen r rest hc] at hv
      rcases List.mem_cons.mp hv with rfl | hv2
      · intro hmem
        rw [(str_contains_iff seen v).mpr hmem] at hc
        cases hc
      · intro hmem
        exact ih (r :: seen) v hv2 (List.mem_cons_of_mem r hmem)

theorem dedupGo_nodup : ∀ (l seen : List Str), (dedupGo seen l).1.Nodup := by
  intro l
  induction l with
  | nil =>
    intro seen
    simp [dedupGo]
  | cons r rest ih =>
    intro seen
    cases hc : seen.contains r with
    | true =>
      rw [dedupGo_cons_mem seen r rest hc]
      exact ih seen
    | false =>
      rw [dedupGo_cons_not_mem seen r rest hc]
      refine List.nodup_cons.mpr ⟨?_, ih (r :: seen)⟩
      intro hmem
      exact dedupGo_not_seen rest (r :: seen) r hmem (List.mem_cons_self r seen)

theorem dedupGo_covers :
    ∀ (l seen : List Str) (v : Str), v ∈ l → v ∈ seen ∨ v ∈ (dedupGo seen l).1 := by
  intro l
  induction l with
  | nil =>
    intro seen v hv
    cases hv
  | cons r rest ih =>
    intro seen v hv
    cases hc : seen.contains r with
    | true =>
      rw [dedupGo_cons_mem seen r rest hc]
      rcases List.mem_cons.mp hv with rfl | hv2
      · exact Or.inl ((str_contains_iff seen v).mp hc)
      · exact ih seen v hv2
    | false =>
      rw [dedupGo_cons_not_mem seen r rest hc]
      rcases List.mem_cons.mp hv with rfl | hv2
      · exact Or.inr (List.mem_cons_self v _)
      · rcases ih (r :: seen) v hv2 with hs | hk
        · rcases List.mem_cons.mp hs with rfl | hs2
          · exact Or.inr (List.mem_cons_self v _)
          · exact Or.inl hs2
        · exact Or.inr (List.mem_cons_of_mem r hk)

theorem dedupGo_count_zero :
    ∀ (l seen : List Str) (v : Str), v ∈ seen → (dedupGo seen l).1.count v = 0 := by
  intro l seen v hv
  exact List.count_eq_zero.mpr (fun hk => dedupGo_not_seen l seen v hk hv)

theorem dedupGo_count_one :
    ∀ (l seen : List Str) (v : Str), v ∉ seen → v ∈ l → (dedupGo seen l).1.count v = 1 := by
  intro l
  induction l with
  | nil =>
    intro seen v _ hv
    cases hv
  | cons r rest ih =>
    intro seen v hns hv
    cases hc : seen.contains r with
    | true =>
      rw [dedupGo_cons_mem seen r rest hc]
      have hvr : v ≠ r := by
        rintro rfl
        exact hns ((str_contains_iff seen v).mp hc)
      rcases List.mem_cons.mp hv with rfl | hv2
      · exact absurd rfl hvr
      · exact ih seen v hns hv2
    | false =>
      rw [dedupGo_cons_not_mem seen r rest hc]
      rcases eq_or_ne v r with rfl | hvr
      · have hz : (dedupGo (v :: seen) rest).1.count v = 0 :=
          dedupGo_count_zero rest (v :: seen) v (List.mem_cons_self v seen)
        simp [List.count_cons, hz]
      · have hv2 : v ∈ rest := by
          rcases List.mem_cons.mp hv with rfl | hv2
          · exact absurd rfl hvr
          · exact hv2
        have hns2 : v ∉ r :: seen := by
          intro hmem
          rcases List.mem_cons.mp hmem with rfl | h
          · exact hvr rfl
          · exact hns h
        have h1 := ih (r :: seen) v hns2 hv2
        have hbeq : (r == v) = false := by
          rcases hbe : r == v with _ | _
          · rfl
          · exact absurd (eq_of_beq hbe).symm hvr
        simp [List.count_cons, h1, hbeq]

theorem dedupGo_pairwise :
    ∀ (l seen : List Str),
      (dedupGo seen l).1.Pairwise (fun u v => firstIdx u l < firstIdx v l) := by
  intro l
  induction l with
  | nil =>
    intro seen
    simp [dedupGo]
  | cons r rest ih =>
    intro seen
    cases hc : seen.contains r with
    | true =>
      rw [dedupGo_cons_mem seen r rest hc]
      have hr : r ∈ seen := (str_contains_iff seen r).mp hc
      refine (ih seen).imp_of_mem ?_
      intro a b ha hb hab
      have har : r ≠ a := by
        rintro rfl
        exact dedupGo_not_seen rest seen r ha hr
      have hbr : r ≠ b := by
        rintro rfl
        exact dedupGo_not_seen rest seen r hb hr
      rw [firstIdx_cons_ne a r rest har, firstIdx_cons_ne b r rest hbr]
      exact Nat.succ_lt_succ hab
    | false =>
      rw [dedupGo_cons_not_mem seen r rest hc]
      refine List.pairwise_cons.mpr ⟨?_, ?_⟩
      · intro b hb
        have hbr : r ≠ b := by
          rintro rfl
          exact dedupGo_not_seen rest (r :: seen) r hb (List.mem_cons_self r seen)
        rw [firstIdx_cons_self, firstIdx_cons_ne b r rest hbr]
        exact Nat.succ_pos _
      · refine (ih (r :: seen)).imp_of_mem ?_
        intro a b ha hb hab
        have har : r ≠ a := by
          rintro rfl
          exact dedupGo_not_seen rest (r :: seen) r ha (List.mem_cons_self r seen)
        have hbr : r ≠ b := by
          rintro rfl
          exact dedupGo_not_seen rest (r :: seen) r hb (List.mem_cons_self r seen)
        rw [firstIdx_cons_ne a r rest har, firstIdx_cons_ne b r rest hbr]
        exact Nat.succ_lt_succ hab

theorem isDomainRule_mk (d : Str) : isDomainRule (mkDomainRule d) = true := by
  simp [isDomainRule, pyStartsWith_pipes_mk, pyEndsWith_caret_mk]

theorem ruleDomain_mk (d : Str) : ruleDomain (mkDomainRule d) = d := by
  simp [ruleDomain, mkDomainRule]

theorem mk_injective : Function.Injective mkDomainRule := by
  intro d₁ d₂ h
  have := congrArg ruleDomain h
  rwa [ruleDomain_mk, ruleDomain_mk] at this

theorem domain_rule_recon (r : Str) (h : isDomainRule r = true) :
    r = mkDomainRule (ruleDomain r) := by
  unfold isDomainRule at h
  rw [Bool.and_eq_true] at h
  rcases h with ⟨h1, h2⟩
  obtain ⟨t, rfl⟩ := (pyStartsWith_iff ['|', '|'] r).mp h1
  obtain ⟨u, hu⟩ := (pyEndsWith_iff ['^'] _).mp h2
  cases u with
  | nil => simp at hu
  | cons x u2 =>
    cases u2 with
    | nil => simp at hu
    | cons y u3 =>
      simp only [List.cons_append, List.nil_append, List.cons.injEq] at hu
      rcases hu with ⟨rfl, rfl, ht⟩
      rw [ht]
      simp [mkDomainRule, ruleDomain]

theorem beq_comm_str (a b : Str) : (a == b) = (b == a) := by
  cases hab : a == b with
  | true =>
    rw [eq_of_beq hab]
    exact (beq_self_eq_true b).symm
  | false =>
    cases hba : b == a with
    | true =>
      rw [eq_of_beq hba] at hab
      rw [beq_self_eq_true] at hab
      cases hab
    | false => rfl

theorem any_key_eq (dict : List (Str × Str)) (d : Str) :
    dict.any (fun p => p.1 == d) = (dict.map (fun p => p.1)).contains d := by
  induction dict with
  | nil => rfl
  | cons p rest ih =>
    simp only [List.any_cons, List.map_cons, List.contains_cons] at *
    rw [ih, beq_comm_str]

theorem insertDomain_values (d r : Str) (dict : List (Str × Str))
    (hv : ∀ p ∈ dict, p.2 = mkDomainRule p.1) (hr : r = mkDomainRule d) :
    ∀ p ∈ insertDomain d r dict, p.2 = mkDomainRule p.1 := by
  unfold insertDomain
  cases ha : dict.any (fun p => p.1 == d) with
  | true =>
    rw [if_pos rfl]
    intro p hp
    rcases List.mem_map.mp hp with ⟨q, hq, hqe⟩
    by_cases hqd : (q.1 == d) = true
    · rw [if_pos hqd] at hqe
      rw [← hqe]
      exact hr
    · rw [if_neg hqd] at hqe
      rw [← hqe]
      exact hv q hq
  | false =>
    rw [if_neg Bool.false_ne_true]
    intro p hp
    rcases List.mem_append.mp hp with hp1 | hp2
    · exact hv p hp1
    · rcases List.mem_singleton.mp hp2 with rfl
      exact hr

theorem insertDomain_keys_mem (d r : Str) (dict : List (Str × Str))
    (ha : dict.any (fun p => p.1 == d) = true) :
    (insertDomain d r dict).map (fun p => p.1) = dict.map (fun p => p.1) := by
  unfold insertDomain
  rw [if_pos ha, List.map_map]
  refine List.map_congr_left ?_
  intro p hp
  by_cases hqd : (p.1 == d) = true
  · simp only [Function.comp_apply, if_pos hqd]
    exact (eq_of_beq hqd).symm
  · simp only [Function.comp_apply, if_neg hqd]

theorem insertDomain_keys_new (d r : Str) (dict : List (Str × Str))
    (ha : dict.any (fun p => p.1 == d) = false) :
    (insertDomain d r dict).map (fun p => p.1) = dict.map (fun p => p.1) ++ [d] := by
  unfold insertDomain
  have hn : ¬ (dict.any (fun p => p.1 == d) = true) := by
    intro hx
    rw [hx] at ha
    cases ha
  rw [if_neg hn]
  simp

theorem not_mem_keys_of_any_false (d : Str) (dict : List (Str × Str))
    (ha : dict.any (fun p => p.1 == d) = false) :
    d ∉ dict.map (fun p => p.1) := by
  intro hd
  rcases List.mem_map.mp hd with ⟨p, hp, hpe⟩
  have := List.any_eq_false.mp ha p hp
  rw [hpe] at this
  exact this (beq_self_eq_true d)

theorem mem_keys_of_any_true (d : Str) (dict : List (Str × Str))
    (ha : dict.any (fun p => p.1 == d) = true) :
    d ∈ dict.map (fun p => p.1) := by
  rcases List.any_eq_true.mp ha with ⟨p, hp, hpe⟩
  rcases eq_of_beq hpe
  exact List.mem_map_of_mem (fun p => p.1) hp

theorem insertDomain_keys_nodup (d r : Str) (dict : List (Str × Str))
    (hnd : (dict.map (fun p => p.1)).Nodup) :
    ((insertDomain d r dict).map (fun p => p.1)).Nodup := by
  cases ha : dict.any (fun p => p.1 == d) with
  | true =>
    rw [insertDomain_keys_mem d r dict ha]
    exact hnd
  | false =>
    rw [insertDomain_keys_new d r dict ha]
    refine List.nodup_append.mpr ⟨hnd, List.nodup_singleton d, ?_⟩
    intro x hx hx2
    rcases List.mem_singleton.mp hx2 with rfl
    exact not_mem_keys_of_any_false x dict ha hx

theorem buildTables_inv :
    ∀ (rules : List Str) (acc : List (Str × Str) × List Str),
      (∀ p ∈ acc.1, p.2 = mkDomainRule p.1) → (acc.1.map (fun p => p.1)).Nodup →
      (∀ p ∈ (rules.foldl buildStep acc).1, p.2 = mkDomainRule p.1)
        ∧ ((rules.foldl buildStep acc).1.map (fun p => p.1)).Nodup := by
  intro rules
  induction rules with
  | nil =>
    intro acc hv hnd
    exact ⟨hv, hnd⟩
  | cons r rest ih =>
    intro acc hv hnd
    rw [List.foldl_cons]
    cases hd : isDomainRule r with
    | true =>
      have hstep : buildStep acc r = (insertDomain (ruleDomain r) r acc.1, acc.2) := by
        unfold buildStep
        rw [if_pos hd]
      rw [hstep]
      exact ih _ (insertDomain_values _ _ _ hv (domain_rule_recon r hd))
        (insertDomain_keys_nodup _ _ _ hnd)
    | false =>
      have hn : ¬ (isDomainRule r = true) := by
        intro hx
        rw [hx] at hd
        cases hd
      have hstep : buildStep acc r = (acc.1, acc.2 ++ [r]) := by
        unfold buildStep
        rw [if_neg hn]
      rw [hstep]
      exact ih _ hv hnd

theorem buildTables_others :
    ∀ (rules : List Str) (acc : List (Str × Str) × List Str),
      (rules.foldl buildStep acc).2
        = acc.2 ++ rules.filter (fun r => !isDomainRule r) := by
  intro rules
  induction rules with
  | nil =>
    intro acc
    simp
  | cons r rest ih =>
    intro acc
    rw [List.foldl_cons]
    cases hd : isDomainRule r with
    | true =>
      have hstep : buildStep acc r = (insertDomain (ruleDomain r) r acc.1, acc.2) := by
        unfold buildStep
        rw [if_pos hd]
      rw [hstep, ih]
      simp [List.filter_cons, hd]
    | false =>
      have hn : ¬ (isDomainRule r = true) := by
        intro hx
        rw [hx] at hd
        cases hd
      have hstep : buildStep acc r = (acc.1, acc.2 ++ [r]) := by
        unfold buildStep
        rw [if_neg hn]
      rw [hstep, ih]
      simp [List.filter_cons, hd]

theorem buildTables_keys_of_nodup :
    ∀ (rules : List Str) (acc : List (Str × Str) × List Str),
      ((rules.filter isDomainRule).map ruleDomain).Nodup →
      (∀ h ∈ (rules.filter isDomainRule).map ruleDomain, h ∉ acc.1.map (fun p => p.1)) →
      (rules.foldl buildStep acc).1.map (fun p => p.1)
        = acc.1.map (fun p => p.1) ++ (rules.filter isDomainRule).map ruleDomain := by
  intro rules
  induction rules with
  | nil =>
    intro acc _ _
    simp
  | cons r rest ih =>
    intro acc hnd hdisj
    rw [List.foldl_cons]
    cases hd : isDomainRule r with
    | true =>
      have hstep : buildStep acc r = (insertDomain (ruleDomain r) r acc.1, acc.2) := by
        unfold buildStep
        rw [if_pos hd]
      rw [hstep]
      have hhosts : (List.filter isDomainRule (r :: rest)).map ruleDomain
          = ruleDomain r :: (List.filter isDomainRule rest).map ruleDomain := by
        simp [List.filter_cons, hd]
      rw [hhosts] at hnd hdisj
      have hnotin : ruleDomain r ∉ acc.1.map (fun p => p.1) :=
        hdisj (ruleDomain r) (List.mem_cons_self _ _)
      have hany : acc.1.any (fun p => p.1 == ruleDomain r) = false := by
        cases hany2 : acc.1.any (fun p => p.1 == ruleDomain r) with
        | false => rfl
        | true => exact absurd (mem_keys_of_any_true _ _ hany2) hnotin
      have hkeys := insertDomain_keys_new (ruleDomain r) r acc.1 hany
      have hrec := ih (insertDomain (ruleDomain r) r acc.1, acc.2)
        (List.nodup_cons.mp hnd).2 ?_
      · rw [hrec, hkeys, hhosts]
        simp
      · intro h hh
        rw [hkeys]
        intro hmem
        rcases List.mem_append.mp hmem with hm1 | hm2
        · exact hdisj h (List.mem_cons_of_mem _ hh) hm1
        · rcases List.mem_singleton.mp hm2 with rfl
          exact (List.nodup_cons.mp hnd).1 hh
    | false =>
      have hn : ¬ (isDomainRule r = true) := by
        intro hx
        rw [hx] at hd
        cases hd
      have hstep : buildStep acc r = (acc.1, acc.2 ++ [r]) := by
        unfold buildStep
        rw [if_neg hn]
      have hhosts : (List.filter isDomainRule (r :: rest)).map ruleDomain
          = (List.filter isDomainRule rest).map ruleDomain := by
        simp [List.filter_cons, hd]
      rw [hhosts] at hnd hdisj
      rw [hstep, hhosts]
      exact ih _ hnd hdisj

theorem markRemove_cons_pos (d : Str) (rest : List Str)
    (ha : rest.any (fun o => pyEndsWith ('.' :: o) d || d == o) = true) :
    markRemove (d :: rest) = d :: markRemove rest := by
  simp only [markRemove]
  rw [if_pos ha]

theorem markRemove_cons_neg (d : Str) (rest : List Str)
    (ha : rest.any (fun o => pyEndsWith ('.' :: o) d || d == o) = false) :
    markRemove (d :: rest) = markRemove rest := by
  have hn : ¬ (rest.any (fun o => pyEndsWith ('.' :: o) d || d == o) = true) := by
    intro hx
    rw [hx] at ha
    cases ha
  simp only [markRemove]
  rw [if_neg hn]

theorem markRemove_sublist : ∀ l : List Str, markRemove l <+ l := by
  intro l
  induction l with
  | nil => exact List.Sublist.refl []
  | cons d rest ih =>
    cases ha : rest.any (fun o => pyEndsWith ('.' :: o) d || d == o) with
    | true =>
      rw [markRemove_cons_pos d rest ha]
      exact ih.cons₂ d
    | false =>
      rw [markRemove_cons_neg d rest ha]
      exact ih.cons d

/-- Every domain marked for removal is dominated (via the literal `"." ++ o`
suffix) by a domain of the list that is itself not marked. -/
theorem markRemove_dominated :
    ∀ l : List Str, l.Nodup →
      ∀ h ∈ markRemove l,
        ∃ o, o ∈ l ∧ o ∉ markRemove l ∧ o ≠ h ∧ ∃ t, h = t ++ ('.' :: o) := by
  intro l
  induction l with
  | nil =>
    intro _ h hh
    cases hh
  | cons d rest ih =>
    intro hnd h hh
    have hd_notin : d ∉ rest := (List.nodup_cons.mp hnd).1
    have hnd2 : rest.Nodup := (List.nodup_cons.mp hnd).2
    cases ha : rest.any (fun o => pyEndsWith ('.' :: o) d || d == o) with
    | true =>
      rw [markRemove_cons_pos d rest ha] at hh ⊢
      rcases List.mem_cons.mp hh with rfl | hh2
      · obtain ⟨o₀, ho₀m, ho₀c⟩ := List.any_eq_true.mp ha
        have ho₀ne : o₀ ≠ h := by
          rintro rfl
          exact hd_notin ho₀m
        have ho₀suf : ∃ t, h = t ++ ('.' :: o₀) := by
          rw [Bool.or_eq_true] at ho₀c
          rcases ho₀c with hsuf | heq
          · exact (pyEndsWith_iff _ _).mp hsuf
          · exact absurd (eq_of_beq heq).symm ho₀ne
        by_cases hrem : o₀ ∈ markRemove rest
        · obtain ⟨o₁, ho₁m, ho₁n, ho₁ne, t₁, ht₁⟩ := ih hnd2 o₀ hrem
          refine ⟨o₁, List.mem_cons_of_mem _ ho₁m, ?_, ?_, ?_⟩
          · intro hmem
            rcases List.mem_cons.mp hmem with rfl | hm
            · exact hd_notin ho₁m
            · exact ho₁n hm
          · intro he
            exact hd_notin (he ▸ ho₁m)
          · obtain ⟨t, ht⟩ := ho₀suf
            refine ⟨t ++ '.' :: t₁, ?_⟩
            rw [ht, ht₁]
            simp
        · refine ⟨o₀, List.mem_cons_of_mem _ ho₀m, ?_, ho₀ne, ho₀suf⟩
          intro hmem
          rcases List.mem_cons.mp hmem with rfl | hm
          · exact hd_notin ho₀m
          · exact hrem hm
      · obtain ⟨o, hom, hon, hone, t, ht⟩ := ih hnd2 h hh2
        refine ⟨o, List.mem_cons_of_mem d hom, ?_, hone, ⟨t, ht⟩⟩
        intro hmem
        rcases List.mem_cons.mp hmem with rfl | hm
        · exact hd_notin hom
        · exact hon hm
    | false =>
      rw [markRemove_cons_neg d rest ha] at hh ⊢
      obtain ⟨o, hom, hon, hone, t, ht⟩ := ih hnd2 h hh
      exact ⟨o, List.mem_cons_of_mem d hom, hon, hone, ⟨t, ht⟩⟩

theorem dict_eq (dict : List (Str × Str)) (hv : ∀ p ∈ dict, p.2 = mkDomainRule p.1) :
    dict = (dict.map (fun p => p.1)).map (fun d => (d, mkDomainRule d)) := by
  induction dict with
  | nil => rfl
  | cons p rest ih =>
    simp only [List.map_cons, List.cons.injEq]
    constructor
    · have hp := hv p (List.mem_cons_self p rest)
      calc p = (p.1, p.2) := rfl
        _ = (p.1, mkDomainRule p.1) := by rw [hp]
    · exact ih (fun q hq => hv q (List.mem_cons_of_mem p hq))

theorem dict_find_eq (dict : List (Str × Str)) (d : Str)
    (hv : ∀ p ∈ dict, p.2 = mkDomainRule p.1) (hd : d ∈ dict.map (fun p => p.1)) :
    dict.find? (fun p => p.1 == d) = some (d, mkDomainRule d) := by
  induction dict with
  | nil => simp at hd
  | cons p rest ih =>
    rw [List.find?_cons]
    cases hbe : p.1 == d with
    | true =>
      have h1 : p.1 = d := eq_of_beq hbe
      have h2 := hv p (List.mem_cons_self p rest)
      calc some p = some (p.1, p.2) := rfl
        _ = some (d, mkDomainRule d) := by rw [h2, h1]
    | false =>
      refine ih (fun q hq => hv q (List.mem_cons_of_mem p hq)) ?_
      have hd2 : d = p.1 ∨ d ∈ rest.map (fun p => p.1) := by simpa using hd
      rcases hd2 with heq | hm
      · rw [← heq, beq_self_eq_true] at hbe
        cases hbe
      · exact hm

theorem removed_eq_map (dict : List (Str × Str)) (tr : List Str)
    (hv : ∀ p ∈ dict, p.2 = mkDomainRule p.1)
    (hsub : ∀ d ∈ tr, d ∈ dict.map (fun p => p.1)) :
    tr.filterMap (fun d => (dict.find? (fun p => p.1 == d)).map (fun p => p.2))
      = tr.map mkDomainRule := by
  induction tr with
  | nil => rfl
  | cons d rest ih =>
    have hrec := ih (fun x hx => hsub x (List.mem_cons_of_mem d hx))
    rw [List.filterMap_cons, dict_find_eq dict d hv (hsub d (List.mem_cons_self d rest))]
    show mkDomainRule d
        :: rest.filterMap (fun x => (dict.find? (fun p => p.1 == x)).map (fun p => p.2))
      = mkDomainRule d :: rest.map mkDomainRule
    rw [hrec]

theorem map_snd_filter_keys (K : List Str) (q : Str × Str → Bool) :
    (((K.map (fun d => (d, mkDomainRule d))).filter q).map (fun p => p.2))
      = (K.filter (fun d => q (d, mkDomainRule d))).map mkDomainRule := by
  induction K with
  | nil => rfl
  | cons k rest ih =>
    cases hp : q (k, mkDomainRule k) with
    | true => simp [List.filter_cons, hp, ih]
    | false => simp [List.filter_cons, hp, ih]

theorem domain_convergence_enabled (cfg : Config) (rules : List Str)
    (h : cfg.domain_convergence = true) :
    domain_convergence cfg rules
      = (convOthers rules
          ++ ((convDict rules).filter (fun p => !(convRemoved rules).contains p.1)).map
              (fun p => p.2),
         (convRemoved rules).filterMap
           (fun d => ((convDict rules).find? (fun p => p.1 == d)).map (fun p => p.2))) := by
  have hn : ¬ ((!cfg.domain_convergence) = true) := by
    rw [h]
    decide
  unfold domain_convergence
  rw [if_neg hn]
  rfl

theorem count_filter_of_neg (p : Str → Bool) (l : List Str) (a : Str) (h : p a = false) :
    (l.filter p).count a = 0 := by
  refine List.count_eq_zero.mpr ?_
  intro hmem
  have := List.of_mem_filter hmem
  rw [h] at this
  cases this

theorem count_eq_one_of_mem_str {a : Str} : ∀ {l : List Str}, l.Nodup → a ∈ l →
    l.count a = 1 := by
  intro l
  induction l with
  | nil =>
    intro _ hm
    cases hm
  | cons b rest ih =>
    intro hnd hm
    rw [List.count_cons]
    rcases List.mem_cons.mp hm with rfl | hm2
    · have hz : rest.count a = 0 :=
        List.count_eq_zero.mpr (List.nodup_cons.mp hnd).1
      rw [hz, beq_self_eq_true]
      rfl
    · have hne : a ≠ b := by
        rintro rfl
        exact (List.nodup_cons.mp hnd).1 hm2
      have hbe : (b == a) = false := by
        cases hbe2 : b == a with
        | false => rfl
        | true => exact absurd (eq_of_beq hbe2).symm hne
      rw [hbe, ih (List.nodup_cons.mp hnd).2 hm2]
      rfl

theorem count_map_mk (K : List Str) (h : Str) :
    (K.map mkDomainRule).count (mkDomainRule h) = K.count h := by
  induction K with
  | nil => rfl
  | cons k rest ih =>
    simp only [List.map_cons, List.count_cons, ih]
    have : (mkDomainRule k == mkDomainRule h) = (k == h) := by
      cases hkh : k == h with
      | true =>
        rw [eq_of_beq hkh]
        exact beq_self_eq_true _
      | false =>
        cases hmk : mkDomainRule k == mkDomainRule h with
        | false => rfl
        | true =>
          have := mk_injective (eq_of_beq hmk)
          rw [this, beq_self_eq_true] at hkh
          cases hkh
    rw [this]

theorem count_map_mk_zero (K : List Str) (v : Str) (hv : isDomainRule v = false) :
    (K.map mkDomainRule).count v = 0 := by
  refine List.count_eq_zero.mpr ?_
  intro hmem
  rcases List.mem_map.mp hmem with ⟨d, _, hde⟩
  rw [← hde] at hv
  rw [isDomainRule_mk] at hv
  cases hv

/-- On a duplicate-free input, domain convergence conserves rule
occurrences: each rule value appears in the final list plus the removed
list exactly as often as in the input. -/
theorem converge_count_conservation (cfg : Config) (kept : List Str)
    (h : cfg.domain_convergence = true) (hknd : kept.Nodup) :
    ∀ v, (domain_convergence cfg kept).1.count v + (domain_convergence cfg kept).2.count v
      = kept.count v := by
  have hv : ∀ p ∈ convDict kept, p.2 = mkDomainRule p.1 :=
    (buildTables_inv kept ([], []) (fun p hp => absurd hp (List.not_mem_nil p))
      List.nodup_nil).1
  have hperm : (convSorted kept).Perm (convKeys kept) :=
    List.perm_insertionSort LenGe (convKeys kept)
  have hndK : (convKeys kept).Nodup :=
    (buildTables_inv kept ([], []) (fun p hp => absurd hp (List.not_mem_nil p))
      List.nodup_nil).2
  have hsortnd : (convSorted kept).Nodup := hperm.nodup_iff.mpr hndK
  have htr_nodup : (convRemoved kept).Nodup :=
    List.Nodup.sublist (markRemove_sublist (convSorted kept)) hsortnd
  have htr_mem : ∀ d ∈ convRemoved kept, d ∈ convKeys kept := fun d hd =>
    hperm.mem_iff.mp ((markRemove_sublist (convSorted kept)).subset hd)
  have hsubs_eq : (convRemoved kept).filterMap
        (fun d => ((convDict kept).find? (fun p => p.1 == d)).map (fun p => p.2))
      = (convRemoved kept).map mkDomainRule :=
    removed_eq_map (convDict kept) (convRemoved kept) hv htr_mem
  have hoth : convOthers kept = kept.filter (fun x => !isDomainRule x) := by
    have hx := buildTables_others kept ([], [])
    simpa using hx
  have hH_nodup : ((kept.filter isDomainRule).map ruleDomain).Nodup := by
    refine List.Nodup.map_on ?_ (hknd.filter isDomainRule)
    intro x hx y hy hxy
    have hdx := List.of_mem_filter hx
    have hdy := List.of_mem_filter hy
    rw [domain_rule_recon x hdx, domain_rule_recon y hdy, hxy]
  have hK_eq : (convDict kept).map (fun p => p.1)
      = (kept.filter isDomainRule).map ruleDomain := by
    have hx := buildTables_keys_of_nodup kept ([], []) hH_nodup
      (fun h2 _ => List.not_mem_nil h2)
    simpa using hx
  have hA_eq : kept.filter isDomainRule
      = ((kept.filter isDomainRule).map ruleDomain).map mkDomainRule := by
    rw [List.map_map]
    have hcg : ∀ x ∈ kept.filter isDomainRule, (mkDomainRule ∘ ruleDomain) x = id x :=
      fun x hx => (domain_rule_recon x (List.of_mem_filter hx)).symm
    rw [List.map_congr_left hcg, List.map_id]
  intro v
  rw [domain_convergence_enabled cfg kept h]
  simp only
  rw [hsubs_eq, List.count_append, dict_eq (convDict kept) hv, map_snd_filter_keys, hK_eq]
  cases hvd : isDomainRule v with
  | false =>
    have e1 : (convOthers kept).count v = kept.count v := by
      rw [hoth]
      exact List.count_filter (by rw [hvd]; rfl)
    have e2 : ((((kept.filter isDomainRule).map ruleDomain).filter
        (fun d => !(convRemoved kept).contains (d, mkDomainRule d).1)).map
          mkDomainRule).count v = 0 :=
      count_map_mk_zero _ v hvd
    have e3 : ((convRemoved kept).map mkDomainRule).count v = 0 :=
      count_map_mk_zero _ v hvd
    rw [e1, e2, e3]
    rfl
  | true =>
    have hvrec := domain_rule_recon v hvd
    rw [hvrec]
    have e1 : (convOthers kept).count (mkDomainRule (ruleDomain v)) = 0 := by
      rw [hoth]
      exact count_filter_of_neg _ _ _ (by rw [isDomainRule_mk]; rfl)
    have e2 := count_map_mk (((kept.filter isDomainRule).map ruleDomain).filter
        (fun d => !(convRemoved kept).contains (d, mkDomainRule d).1)) (ruleDomain v)
    have e3 := count_map_mk (convRemoved kept) (ruleDomain v)
    have e4 : kept.count (mkDomainRule (ruleDomain v))
        = ((kept.filter isDomainRule).map ruleDomain).count (ruleDomain v) := by
      have s1 : (kept.filter isDomainRule).count (mkDomainRule (ruleDomain v))
          = kept.count (mkDomainRule (ruleDomain v)) :=
        List.count_filter (by rw [isDomainRule_mk])
      conv_lhs => rw [← s1, hA_eq]
      exact count_map_mk _ _
    by_cases hq : ruleDomain v ∈ convRemoved kept
    · have c1 : (convRemoved kept).count (ruleDomain v) = 1 :=
        count_eq_one_of_mem_str htr_nodup hq
      have c2 : (((kept.filter isDomainRule).map ruleDomain).filter
          (fun d => !(convRemoved kept).contains (d, mkDomainRule d).1)).count
            (ruleDomain v) = 0 := by
        refine count_filter_of_neg _ _ _ ?_
        have hcont : (convRemoved kept).contains (ruleDomain v) = true :=
          (str_contains_iff _ _).mpr hq
        show (!(convRemoved kept).contains (ruleDomain v)) = false
        rw [hcont]
        rfl
      have c3 : ((kept.filter isDomainRule).map ruleDomain).count (ruleDomain v) = 1 := by
        refine count_eq_one_of_mem_str ?_ ?_
        · exact hH_nodup
        · rw [← hK_eq]
          exact htr_mem _ hq
      rw [e2, e3]
      omega
    · have c1 : (convRemoved kept).count (ruleDomain v) = 0 :=
        List.count_eq_zero.mpr hq
      have hcont : (convRemoved kept).contains (ruleDomain v) = false := by
        cases hcc : (convRemoved kept).contains (ruleDomain v) with
        | false => rfl
        | true => exact absurd ((str_contains_iff _ _).mp hcc) hq
      have c2 : (((kept.filter isDomainRule).map ruleDomain).filter
          (fun d => !(convRemoved kept).contains (d, mkDomainRule d).1)).count
            (ruleDomain v)
          = ((kept.filter isDomainRule).map ruleDomain).count (ruleDomain v) := by
        refine List.count_filter ?_
        show (!(convRemoved kept).contains (ruleDomain v)) = true
        rw [hcont]
        rfl
      rw [e2, e3]
      omega

/-- A rule removed by domain convergence never appears in the final rule
list of that stage. -/
theorem converge_removed_not_in_final (cfg : Config) (kept : List Str)
    (h : cfg.domain_convergence = true) :
    ∀ v ∈ (domain_convergence cfg kept).2, v ∉ (domain_convergence cfg kept).1 := by
  have hv : ∀ p ∈ convDict kept, p.2 = mkDomainRule p.1 :=
    (buildTables_inv kept ([], []) (fun p hp => absurd hp (List.not_mem_nil p))
      List.nodup_nil).1
  have hperm : (convSorted kept).Perm (convKeys kept) :=
    List.perm_insertionSort LenGe (convKeys kept)
  have htr_mem : ∀ d ∈ convRemoved kept, d ∈ convKeys kept := fun d hd =>
    hperm.mem_iff.mp ((markRemove_sublist (convSorted kept)).subset hd)
  have hsubs_eq : (convRemoved kept).filterMap
        (fun d => ((convDict kept).find? (fun p => p.1 == d)).map (fun p => p.2))
      = (convRemoved kept).map mkDomainRule :=
    removed_eq_map (convDict kept) (convRemoved kept) hv htr_mem
  have hoth : convOthers kept = kept.filter (fun x => !isDomainRule x) := by
    have hx := buildTables_others kept ([], [])
    simpa using hx
  rw [domain_convergence_enabled cfg kept h]
  simp only [hsubs_eq]
  intro v hvmem hvfinal
  rcases List.mem_map.mp hvmem with ⟨d0, hd0, rfl⟩
  rcases List.mem_append.mp hvfinal with hin1 | hin2
  · rw [hoth] at hin1
    have hb := List.of_mem_filter hin1
    rw [isDomainRule_mk] at hb
    simp at hb
  · rcases List.mem_map.mp hin2 with ⟨p, hpf, hpe⟩
    have hpd := List.mem_filter.mp hpf
    have hp2 : p.2 = mkDomainRule p.1 := hv p hpd.1
    have hp1d : p.1 = d0 := mk_injective (by rw [← hp2, hpe])
    have hcont : (convRemoved kept).contains p.1 = true :=
      (str_contains_iff _ _).mpr (by rw [hp1d]; exact hd0)
    have hb := hpd.2
    rw [hcont] at hb
    simp at hb

/-! ### Claim theorems -/

/-- C5: for every string `p`, `canonicalize (canonicalize p) = canonicalize p`:
pattern canonicalization (`convert_to_pipe_format`) is idempotent. -/
theorem C5_canonicalize_idempotent (p : Str) :
    convert_to_pipe_format (convert_to_pipe_format p) = convert_to_pipe_format p := by
  cases h1 : (pyStartsWith ['|', '|'] p && pyEndsWith ['^'] p) with
  | true =>
    have e : convert_to_pipe_format p = p := by simp [convert_to_pipe_format, h1]
    simp only [e]
  | false =>
    cases h2 : (pyStartsWith ['@', '@', '|', '|'] p && pyEndsWith ['^'] p) with
    | true =>
      have e : convert_to_pipe_format p = p := by simp [convert_to_pipe_format, h1, h2]
      simp only [e]
    | false =>
      cases h3 : (matchPipeHost p).isSome with
      | true =>
        have e : convert_to_pipe_format p = p := by simp [convert_to_pipe_format, h1, h2, h3]
        simp only [e]
      | false =>
        cases hs : reSearchDomain p with
        | none =>
          have e : convert_to_pipe_format p = p := by
            simp [convert_to_pipe_format, h1, h2, h3, hs]
          simp only [e]
        | some d =>
          cases h4 : pyStartsWith ['@', '@'] p with
          | true =>
            have e : convert_to_pipe_format p = '@' :: '@' :: mkDomainRule d := by
              simp [convert_to_pipe_format, h1, h2, h3, hs, h4]
            rw [e, convert_exception_fixed]
          | false =>
            have e : convert_to_pipe_format p = mkDomainRule d := by
              simp [convert_to_pipe_format, h1, h2, h3, hs, h4]
            rw [e, convert_mk_fixed]

/-- C10: every string that starts with `||` and ends with `^`, or starts with
`@@||` and ends with `^`, is returned unchanged by canonicalization, whatever
its interior contains. -/
theorem C10_anchored_forms_unchanged (s : Str)
    (h : (pyStartsWith ['|', '|'] s = true ∧ pyEndsWith ['^'] s = true) ∨
      (pyStartsWith ['@', '@', '|', '|'] s = true ∧ pyEndsWith ['^'] s = true)) :
    convert_to_pipe_format s = s := by
  rcases h with ⟨h1, h2⟩ | ⟨h1, h2⟩
  · simp [convert_to_pipe_format, h1, h2]
  · obtain ⟨t, rfl⟩ := (pyStartsWith_iff _ s).mp h1
    have hpipe : (('|' : Char) == '@') = false := by decide
    have h0 : pyStartsWith ['|', '|'] (['@', '@', '|', '|'] ++ t) = false := by
      simp [pyStartsWith, hpipe]
    simp only [List.cons_append, List.nil_append] at h0 h1 h2 ⊢
    simp [convert_to_pipe_format, h0, h1, h2]

/-- Witness for C10 at a concrete anchored rule whose interior contains `^`,
`/` and `$`. -/
theorem C10_anchored_forms_unchanged_witness :
    convert_to_pipe_format "||a^/b$c^".toList = "||a^/b$c^".toList :=
  C10_anchored_forms_unchanged _ (Or.inl ⟨by decide, by decide⟩)

/-- C3: every rule removed by domain convergence is an anchored rule whose
host is dominated by the host of some other anchored rule that survives in
the output (a strict `"." ++ o` suffix), the dominating rule is itself never
removed, and non-anchored rules pass through with unchanged multiplicity (so
no rule lacking a surviving dominator is ever removed). -/
theorem C3_convergence_dominated (cfg : Config) (rules : List Str)
    (h : cfg.domain_convergence = true) :
    (∀ r ∈ (domain_convergence cfg rules).2,
        isDomainRule r = true ∧
          ∃ s, s ∈ (domain_convergence cfg rules).1
            ∧ s ∉ (domain_convergence cfg rules).2 ∧ s ≠ r
            ∧ pyEndsWith ('.' :: ruleDomain s) (ruleDomain r) = true) ∧
      (∀ r, isDomainRule r = false →
        (domain_convergence cfg rules).1.count r = rules.count r) := by
  have hv : ∀ p ∈ convDict rules, p.2 = mkDomainRule p.1 :=
    (buildTables_inv rules ([], []) (fun p hp => absurd hp (List.not_mem_nil p))
      List.nodup_nil).1
  have hnd : (convKeys rules).Nodup :=
    (buildTables_inv rules ([], []) (fun p hp => absurd hp (List.not_mem_nil p))
      List.nodup_nil).2
  have hperm : (convSorted rules).Perm (convKeys rules) :=
    List.perm_insertionSort LenGe (convKeys rules)
  have hsortnd : (convSorted rules).Nodup := hperm.nodup_iff.mpr hnd
  have htr_mem : ∀ d ∈ convRemoved rules, d ∈ convKeys rules := fun d hd =>
    hperm.mem_iff.mp ((markRemove_sublist (convSorted rules)).subset hd)
  have hsubs_eq : (convRemoved rules).filterMap
        (fun d => ((convDict rules).find? (fun p => p.1 == d)).map (fun p => p.2))
      = (convRemoved rules).map mkDomainRule :=
    removed_eq_map (convDict rules) (convRemoved rules) hv htr_mem
  rw [domain_convergence_enabled cfg rules h]
  simp only [hsubs_eq]
  constructor
  · intro r hr
    rcases List.mem_map.mp hr with ⟨hR, hhR, rfl⟩
    refine ⟨isDomainRule_mk hR, ?_⟩
    obtain ⟨o, hom, hon, hone, t, ht⟩ :=
      markRemove_dominated (convSorted rules) hsortnd hR hhR
    refine ⟨mkDomainRule o, ?_, ?_, ?_, ?_⟩
    · apply List.mem_append_right
      have hoK : o ∈ convKeys rules := hperm.mem_iff.mp hom
      rcases List.mem_map.mp hoK with ⟨p, hp, hpe⟩
      have hp2 : p.2 = mkDomainRule p.1 := hv p hp
      have hcc : (convRemoved rules).contains p.1 = false := by
        cases hcc2 : (convRemoved rules).contains p.1 with
        | false => rfl
        | true =>
          rw [hpe] at hcc2
          exact absurd ((str_contains_iff _ _).mp hcc2) hon
      have hpf : p ∈ (convDict rules).filter
          (fun q => !(convRemoved rules).contains q.1) := by
        refine List.mem_filter.mpr ⟨hp, ?_⟩
        rw [hcc]
        rfl
      have hmem : p.2 ∈ ((convDict rules).filter
          (fun q => !(convRemoved rules).contains q.1)).map (fun q => q.2) :=
        List.mem_map_of_mem (fun q => q.2) hpf
      rw [hp2, hpe] at hmem
      exact hmem
    · intro hmm
      rcases List.mem_map.mp hmm with ⟨o2, ho2, hoe⟩
      exact hon (mk_injective hoe ▸ ho2)
    · intro he
      exact hone (mk_injective he)
    · rw [ruleDomain_mk, ruleDomain_mk]
      exact (pyEndsWith_iff _ _).mpr ⟨t, ht⟩
  · intro r hnr
    rw [List.count_append]
    have hoth : convOthers rules = rules.filter (fun x => !isDomainRule x) := by
      have hx := buildTables_others rules ([], [])
      simpa using hx
    have h1 : (convOthers rules).count r = rules.count r := by
      rw [hoth]
      exact List.count_filter (by rw [hnr]; rfl)
    have h2 : (((convDict rules).filter
        (fun p => !(convRemoved rules).contains p.1)).map (fun p => p.2)).count r = 0 := by
      rw [dict_eq (convDict rules) hv, map_snd_filter_keys]
      exact count_map_mk_zero _ r hnr
    rw [h1, h2]
    rfl

/-- Witness for C3 on `[||x.a.com^, ||a.com^]`: the removed rule
`||x.a.com^` has the surviving dominator `||a.com^`. -/
theorem C3_convergence_dominated_witness :
    isDomainRule "||x.a.com^".toList = true ∧
      ∃ s, s ∈ (domain_convergence defaultConfig
            (["||x.a.com^", "||a.com^"].map String.toList)).1
        ∧ s ∉ (domain_convergence defaultConfig
            (["||x.a.com^", "||a.com^"].map String.toList)).2
        ∧ s ≠ "||x.a.com^".toList
        ∧ pyEndsWith ('.' :: ruleDomain s) (ruleDomain "||x.a.com^".toList) = true :=
  (C3_convergence_dominated defaultConfig (["||x.a.com^", "||a.com^"].map String.toList)
    rfl).1 "||x.a.com^".toList (by decide)

/-- C4: the end-to-end scenario — normalize, dedupe and converge the five
given raw lines; the final rules are `||a.com^` and `||plain.net^` with one
duplicate and one converged rule removed. -/
theorem C4_end_to_end :
    (domain_convergence defaultConfig
        (deduplicate_rules
          ((["||a.com^", "||a.com^", "||x.a.com^", "! c", "plain.net"].map String.toList).filterMap
            (normalize_rule defaultConfig))).1).1
        = ["||a.com^", "||plain.net^"].map String.toList ∧
      (deduplicate_rules
        ((["||a.com^", "||a.com^", "||x.a.com^", "! c", "plain.net"].map String.toList).filterMap
          (normalize_rule defaultConfig))).2.length = 1 ∧
      (domain_convergence defaultConfig
        (deduplicate_rules
          ((["||a.com^", "||a.com^", "||x.a.com^", "! c", "plain.net"].map String.toList).filterMap
            (normalize_rule defaultConfig))).1).2.length = 1 := by
  decide

/-- C1 (counterexample): on the claim's own example `bad.com$important` the
surviving option `important` is not reattached — `normalize` returns
`||bad.com^`, not the canonicalized pattern followed by the options. -/
theorem C1_counterexample :
    normalize_rule defaultConfig "bad.com$important".toList = some "||bad.com^".toList ∧
      normalize_rule defaultConfig "bad.com$important".toList
        ≠ some "||bad.com^$important".toList :=
  ⟨by decide, by decide⟩

/-- C1 (amended): canonicalization is applied to the whole recombined rule
(pattern, `$`, sorted surviving modifiers); whenever its host-extraction
fallback fires on that recombined string, the surviving options are dropped —
`normalize` returns just `||host^`. -/
theorem C1_options_dropped_on_rewrite (raw d : Str)
    (hne : (pyStrip raw).isEmpty = false)
    (hcb : pyStartsWith ['!'] (pyStrip raw) = false)
    (hch : pyStartsWith ['#'] (pyStrip raw) = false)
    (hdol : (collapseWs (pyStrip raw)).contains '$' = true)
    (hval : (validModifiers defaultConfig.supported_modifiers
      (collapseWs (pyStrip raw))).isEmpty = false)
    (h1 : (pyStartsWith ['|', '|'] (preNormalized defaultConfig raw)
      && pyEndsWith ['^'] (preNormalized defaultConfig raw)) = false)
    (h2 : (pyStartsWith ['@', '@', '|', '|'] (preNormalized defaultConfig raw)
      && pyEndsWith ['^'] (preNormalized defaultConfig raw)) = false)
    (h3 : matchPipeHost (preNormalized defaultConfig raw) = none)
    (hs : reSearchDomain (preNormalized defaultConfig raw) = some d)
    (h4 : pyStartsWith ['@', '@'] (preNormalized defaultConfig raw) = false) :
    normalize_rule defaultConfig raw = some (mkDomainRule d) := by
  rw [normalize_rule_eq defaultConfig raw hne hcb hch]
  have hfmt : defaultConfig.format_standardize = true := rfl
  rw [hfmt, if_pos rfl]
  have h3' : (matchPipeHost (preNormalized defaultConfig raw)).isSome = false := by
    rw [h3]
    rfl
  simp [convert_to_pipe_format, h1, h2, h3', hs, h4]

/-- Witness for C1's amended theorem at the claim's example input. -/
theorem C1_options_dropped_on_rewrite_witness :
    normalize_rule defaultConfig "bad.com$important".toList
      = some (mkDomainRule "bad.com".toList) :=
  C1_options_dropped_on_rewrite "bad.com$important".toList "bad.com".toList
    (by decide) (by decide) (by decide) (by decide) (by decide)
    (by decide) (by decide) (by decide) (by decide) (by decide)

/-- C2: on any non-empty input the run raises `KeyError` inside
`save_results` (the header reads `stats['reduction_percent']`, which only
`save_statistics` — called later — would create), so neither the optimized
file nor the statistics file is written; on empty input it returns failure
with no writes, as the claim says. -/
theorem C2_run_outcomes :
    run defaultConfig ⟨"20260101000000".toList, "2026-01-01T00:00:00".toList⟩ ["a.com".toList]
        = (.error "KeyError: reduction_percent", []) ∧
      run defaultConfig ⟨"20260101000000".toList, "2026-01-01T00:00:00".toList⟩ []
        = (.ok false, []) :=
  ⟨by decide, by decide⟩

/-- C6: dedupe keeps exactly the first occurrence of each distinct rule, in
first-seen relative order (the kept list is a duplicate-free sublist covering
every value, ordered by first-occurrence index), and a value occurring `n`
times keeps exactly one occurrence while the other `n - 1` go to the removed
list in the order encountered (a sublist with the complementary count). -/
theorem C6_dedupe (rules : List Str) :
    (deduplicate_rules rules).1.Nodup ∧
      (deduplicate_rules rules).1 <+ rules ∧
      (deduplicate_rules rules).2 <+ rules ∧
      (∀ v, v ∈ rules → v ∈ (deduplicate_rules rules).1) ∧
      (∀ v, v ∈ rules → (deduplicate_rules rules).1.count v = 1) ∧
      (∀ v, (deduplicate_rules rules).1.count v + (deduplicate_rules rules).2.count v
        = rules.count v) ∧
      (deduplicate_rules rules).1.Pairwise
        (fun u v => firstIdx u rules < firstIdx v rules) := by
  refine ⟨dedupGo_nodup rules [], dedupGo_kept_sublist rules [],
    dedupGo_removed_sublist rules [], ?_, ?_, fun v => dedupGo_count v rules [],
    dedupGo_pairwise rules []⟩
  · intro v hv
    rcases dedupGo_covers rules [] v hv with hs | hk
    · cases hs
    · exact hk
  · intro v hv
    exact dedupGo_count_one rules [] v (List.not_mem_nil v) hv

/-- Witness for C6 at `["a", "b", "a"]`: the repeated value survives exactly
once. -/
theorem C6_dedupe_witness :
    "a".toList ∈ (deduplicate_rules (["a", "b", "a"].map String.toList)).1 ∧
      (deduplicate_rules (["a", "b", "a"].map String.toList)).1.count "a".toList = 1 :=
  ⟨(C6_dedupe (["a", "b", "a"].map String.toList)).2.2.2.1 "a".toList (by decide),
   (C6_dedupe (["a", "b", "a"].map String.toList)).2.2.2.2.1 "a".toList (by decide)⟩

/-- C7 (counterexample): `plain.org$third-party` has a `$` options part and a
surviving modifier, yet `normalize` does not return the kept tokens rejoined
with `,` — the later canonicalization rewrites the rule to `||plain.org^`. -/
theorem C7_counterexample :
    normalize_rule defaultConfig "plain.org$third-party".toList
        = some "||plain.org^".toList ∧
      normalize_rule defaultConfig "plain.org$third-party".toList
        ≠ some "plain.org$third-party".toList :=
  ⟨by decide, by decide⟩

/-- C7 (amended): the modifier-filtering step of `normalize` keeps exactly
the allow-listed tokens (as a permutation of the filter of the candidate
tokens), sorted lexicographically and rejoined with `,`, dropping `$` when
none survive; the subsequent pattern canonicalization may still rewrite the
whole rule. The claim's own example survives canonicalization unchanged. -/
theorem C7_modifier_filtering :
    (∀ (mods : List Str) (rule : Str), rule.contains '$' = true →
      ((validModifiers mods rule).isEmpty = true →
        filterModifiers mods rule = pyStrip (rule.takeWhile (fun c => c != '$'))) ∧
      ((validModifiers mods rule).isEmpty = false →
        ∃ sortedValid, sortedValid.Perm (validModifiers mods rule) ∧
          sortedValid.Sorted StrLe ∧
          filterModifiers mods rule
            = pyStrip (rule.takeWhile (fun c => c != '$'))
              ++ '$' :: List.intercalate [','] sortedValid)) ∧
    normalize_rule defaultConfig "||bad.com^$domain=good.com,evilmod,important".toList
      = some "||bad.com^$domain=good.com,important".toList := by
  constructor
  · intro mods rule hdol
    constructor
    · intro hv
      unfold filterModifiers
      rw [hdol]
      simp [hv]
    · intro hv
      refine ⟨List.insertionSort StrLe (validModifiers mods rule), ?_, ?_, ?_⟩
      · exact List.perm_insertionSort StrLe _
      · exact List.sorted_insertionSort StrLe _
      · unfold filterModifiers
        rw [hdol]
        simp [hv]
  · decide

/-- Witness for C7's amended theorem: the filtering stage applied at the
claim's example keeps `domain=good.com` and `important` in sorted order. -/
theorem C7_modifier_filtering_witness :
    ∃ sortedValid,
      sortedValid.Perm (validModifiers defaultModifiers
        "||bad.com^$domain=good.com,evilmod,important".toList) ∧
      sortedValid.Sorted StrLe ∧
      filterModifiers defaultModifiers "||bad.com^$domain=good.com,evilmod,important".toList
        = pyStrip ("||bad.com^$domain=good.com,evilmod,important".toList.takeWhile
            (fun c => c != '$'))
          ++ '$' :: List.intercalate [','] sortedValid :=
  ((C7_modifier_filtering.1 defaultModifiers
    "||bad.com^$domain=good.com,evilmod,important".toList (by decide)).2 (by decide))

/-- C8: in the dedupe-then-converge pipeline every removed rule occurrence
is recorded in exactly one removal record — for each value, the occurrences
in the final list, the duplicates record and the subdomains record add up
exactly to the occurrences in the input — and a rule recorded in the
subdomains record is never in the final rule list. -/
theorem C8_removal_accounting (cfg : Config) (rules : List Str)
    (h : cfg.domain_convergence = true) :
    (∀ v, (domain_convergence cfg (deduplicate_rules rules).1).1.count v
        + (deduplicate_rules rules).2.count v
        + (domain_convergence cfg (deduplicate_rules rules).1).2.count v
      = rules.count v) ∧
      (∀ v ∈ (domain_convergence cfg (deduplicate_rules rules).1).2,
        v ∉ (domain_convergence cfg (deduplicate_rules rules).1).1) := by
  constructor
  · intro v
    have h1 := converge_count_conservation cfg (deduplicate_rules rules).1 h
      (dedupGo_nodup rules []) v
    have h2 : (deduplicate_rules rules).1.count v + (deduplicate_rules rules).2.count v
        = rules.count v := dedupGo_count v rules []
    omega
  · exact converge_removed_not_in_final cfg (deduplicate_rules rules).1 h

/-- Witness for C8 on `[||x.a.com^, ||x.a.com^, ||a.com^]`: the two removed
occurrences of `||x.a.com^` are split between the two records and the value
is absent from the final list. -/
theorem C8_removal_accounting_witness :
    ((domain_convergence defaultConfig
          (deduplicate_rules (["||x.a.com^", "||x.a.com^", "||a.com^"].map
            String.toList)).1).1.count "||x.a.com^".toList
        + (deduplicate_rules (["||x.a.com^", "||x.a.com^", "||a.com^"].map
            String.toList)).2.count "||x.a.com^".toList
        + (domain_convergence defaultConfig
            (deduplicate_rules (["||x.a.com^", "||x.a.com^", "||a.com^"].map
              String.toList)).1).2.count "||x.a.com^".toList
      = (["||x.a.com^", "||x.a.com^", "||a.com^"].map String.toList).count
          "||x.a.com^".toList) ∧
      "||x.a.com^".toList ∉ (domain_convergence defaultConfig
        (deduplicate_rules (["||x.a.com^", "||x.a.com^", "||a.com^"].map
          String.toList)).1).1 :=
  ⟨(C8_removal_accounting defaultConfig
      (["||x.a.com^", "||x.a.com^", "||a.com^"].map String.toList) rfl).1
      "||x.a.com^".toList,
   (C8_removal_accounting defaultConfig
      (["||x.a.com^", "||x.a.com^", "||a.com^"].map String.toList) rfl).2
      "||x.a.com^".toList (by decide)⟩

set_option maxRecDepth 10000 in
/-- C9 (counterexample): the header block written by `save_results` consists
of 9 comment lines, not 8 — with one rule the file contains 10 newline
characters, while an 8-line header followed by one newline-terminated rule
would contain 9. -/
theorem C9_counterexample :
    (saveContent ⟨"20260101000000".toList, "2026-01-01T00:00:00".toList⟩ 5 "80.00".toList
        ["||a.com^".toList]).count '\n' = 10 ∧ (10 : Nat) ≠ 8 + 1 :=
  ⟨by decide, by decide⟩

/-- C9 (amended): the optimized-rules file is a fixed 9-line header block of
`!`-prefixed comment lines (the 8 informational lines plus a trailing `! `
line) followed by the final rules, lexicographically sorted, one per line,
each newline-terminated. -/
theorem C9_output_format (p : SaveParams) (oc : Nat) (red : Str) (rules : List Str) :
    saveContent p oc red rules
        = (headerLines p oc red rules ++ List.insertionSort StrLe rules).flatMap
            (fun l => l ++ ['\n']) ∧
      (headerLines p oc red rules).length = 9 ∧
      (∀ l ∈ headerLines p oc red rules, l.head? = some '!') ∧
      (List.insertionSort StrLe rules).Perm rules ∧
      (List.insertionSort StrLe rules).Sorted StrLe := by
  refine ⟨rfl, rfl, ?_, List.perm_insertionSort StrLe rules, List.sorted_insertionSort StrLe _⟩
  intro l hl
  simp only [headerLines, List.mem_cons, List.not_mem_nil, or_false] at hl
  rcases hl with rfl | rfl | rfl | rfl | rfl | rfl | rfl | rfl | rfl <;> rfl

/-- Witness for C9's amended theorem: the trailing `! ` header line of a
concrete save is a comment line. -/
theorem C9_output_format_witness :
    ("! ".toList : Str).head? = some '!' :=
  (C9_output_format ⟨"20260101000000".toList, "2026-01-01T00:00:00".toList⟩ 5 "80.00".toList
    ["||a.com^".toList]).2.2.1 "! ".toList (by decide)

end Optimizer
